import Mathlib

/-!
Verification of the vfs virtual-file-system package against its
natural-language specification.

The repository ships the core implementation (the Dir/File entry tree, the
read/read-write file handles with transparent per-file compression, the
in-memory backend, the Mounter and the shared Walk algorithm) outside of the
sources available here; what is available are the package's tests (which pin
much of the observable behaviour) and the io/fs read-only adapter `iofs.go`.
Definitions below are therefore modelled from the specification, with the
in-repo tests taken as authoritative wherever they pin a behaviour, and the
`adapterDirFile` batching logic is translated directly from `iofs.go`.

Bytes are modelled as `List Nat`, paths as lists of name segments
(`[]` is the root `/`).
-/

namespace Vfs

/-- The error taxonomy of the spec (§6/§7): errors are values of a closed set
of kinds.  `EOF` models Go's `io.EOF` sentinel used by read loops. -/
inductive VfsError where
  | NotExist
  | AlreadyExists
  | NotADirectory
  | IsADirectory
  | DirectoryNotEmpty
  | InvalidName
  | InvalidPath
  | ReadOnlyViolation
  | UseAfterClose
  | ContentCorruption
  | Unsupported
  | EOF
deriving DecidableEq, Repr

/-- Modelled from the spec: the compression codec (zlib in the implementation,
which lives outside the available sources) is abstracted as a pair of total
compression and partial decompression functions; decompression of the
compressed form of any payload recovers it, and decompression returns `none`
exactly on malformed compressed bytes (the "content corruption" inputs). -/
structure Codec where
  comp : List Nat → List Nat
  decomp : List Nat → Option (List Nat)
  round : ∀ b, decomp (comp b) = some b

/-- A stored file: a byte payload plus the flag recording whether the stored
form is compressed (the Go `File` with its `ModeCompress` mode bit). -/
structure File where
  data : List Nat
  compressed : Bool
deriving DecidableEq, Repr

/-- Modelled from the spec: the decoded (logical) content of a stored file;
`none` when the stored form claims to be compressed but does not decode. -/
def fileData (c : Codec) (f : File) : Option (List Nat) :=
  if f.compressed then c.decomp f.data else some f.data

/-- The size a `File` reports.  The implementation is not among the available
sources, but the in-repo test `TestCompress` (src/vfs_test.go) requires the
sum of reported sizes to strictly shrink after `Compress`, which pins
`Size()` to the length of the *stored* payload. -/
def File.size (f : File) : Nat :=
  f.data.length

/-- Modelled from the spec's words ("`Size()` always reports the logical
(uncompressed) length"), for comparison with `File.size` above. -/
def File.sizeSpec (c : Codec) (f : File) : Nat :=
  ((fileData c f).getD []).length

/-- A file handle (read-only or read-write cursor): a decoded working copy of
the file's payload, a cursor offset, the closed flag, the access capabilities
and the per-handle "compress on close" opt-in. -/
structure FileHandle where
  buf : List Nat
  off : Nat
  closed : Bool
  canRead : Bool
  canWrite : Bool
  compressOnClose : Bool
deriving DecidableEq, Repr

/-- A fresh handle over a decoded buffer with the given capabilities. -/
def mkHandle (buf : List Nat) (read write : Bool) : FileHandle :=
  { buf := buf, off := 0, closed := false,
    canRead := read, canWrite := write, compressOnClose := false }

/-- Modelled from the spec: opening a read handle eagerly decompresses the
stored payload into the working buffer; malformed compressed bytes fail at
open time with the content-corruption error. -/
def NewRFile (c : Codec) (f : File) : Except VfsError FileHandle :=
  match fileData c f with
  | none => .error .ContentCorruption
  | some d => .ok (mkHandle d true false)

/-- Modelled from the spec: a read-write handle is seeded identically
(`NewWFile(f, read, write)` in the tests). -/
def NewWFile (c : Codec) (f : File) (read write : Bool) :
    Except VfsError FileHandle :=
  match fileData c f with
  | none => .error .ContentCorruption
  | some d => .ok (mkHandle d read write)

/-- Modelled from the spec: `Read` after close fails with use-after-close;
reading a write-only handle fails; otherwise reads come from the decoded
working buffer at the cursor, returning `EOF` when the cursor is at the end. -/
def readH (h : FileHandle) (n : Nat) : Except VfsError (List Nat × FileHandle) :=
  if h.closed then .error .UseAfterClose
  else if h.canRead = false then .error .ReadOnlyViolation
  else if h.buf.length ≤ h.off ∧ 0 < n then .error .EOF
  else
    let out := (h.buf.drop h.off).take n
    .ok (out, { h with off := h.off + out.length })

/-- Modelled from the spec: `Write(buf)` at offset `o` overwrites in place the
bytes within the current content length, appends the bytes past it (the
buffer grows, never sparse), and advances the offset by the bytes written. -/
def writeH (h : FileHandle) (bs : List Nat) :
    Except VfsError (Nat × FileHandle) :=
  if h.closed then .error .UseAfterClose
  else if h.canWrite = false then .error .ReadOnlyViolation
  else
    .ok (bs.length,
      { h with buf := h.buf.take h.off ++ bs ++ h.buf.drop (h.off + bs.length),
               off := h.off + bs.length })

/-- The position a seek call asks for, before clamping: Go's
`io.SeekStart = 0`, `io.SeekCurrent = 1`, `io.SeekEnd = 2`. -/
def intendedPos (h : FileHandle) (offset : Int) (whence : Nat) : Int :=
  match whence with
  | 0 => offset
  | 1 => (h.off : Int) + offset
  | 2 => (h.buf.length : Int) + offset
  | _ => 0

/-- Modelled from the spec: `Seek` after close fails with use-after-close; a
recognized origin clamps the resulting position into `[0, content length]`
and never fails; an unrecognized origin is a caller contract violation that
aborts (a Go panic), modelled as the `none` result. -/
def seekH (h : FileHandle) (offset : Int) (whence : Nat) :
    Option (Except VfsError (Nat × FileHandle)) :=
  if h.closed then some (.error .UseAfterClose)
  else if whence ≤ 2 then
    let p := intendedPos h offset whence
    let pos : Nat := if p < 0 then 0 else min p.toNat h.buf.length
    some (.ok (pos, { h with off := pos }))
  else none

/-- Modelled from the spec: `Close` on a write handle materializes the working
buffer into the file.  With "compress on close" set, the compressed form
replaces the stored payload only if strictly smaller than the plain form;
otherwise the plain form is kept. -/
def closeW (c : Codec) (h : FileHandle) (f : File) :
    Except VfsError (File × FileHandle) :=
  if h.closed then .error .UseAfterClose
  else
    let f' :=
      if h.compressOnClose then
        let cd := c.comp h.buf
        if cd.length < h.buf.length then { f with data := cd, compressed := true }
        else { f with data := h.buf, compressed := false }
      else { f with data := h.buf, compressed := false }
    .ok (f', { h with closed := true })

/-- A concrete executable codec used by witnesses: the compressed form is the
payload behind a `0` marker, except that a run of at least three zero bytes
is stored as `[1, length]`; decompression rejects anything else. -/
def zcomp (b : List Nat) : List Nat :=
  if b = List.replicate b.length 0 ∧ 3 ≤ b.length then [1, b.length] else 0 :: b

/-- Decompression for `zcomp`; `none` models malformed compressed bytes. -/
def zdecomp : List Nat → Option (List Nat)
  | 0 :: rest => some rest
  | [1, n] => some (List.replicate n 0)
  | _ => none

/-- The concrete codec built from `zcomp`/`zdecomp`. -/
def zCodec : Codec where
  comp := zcomp
  decomp := zdecomp
  round := fun b => by
    by_cases hb : b = List.replicate b.length 0 ∧ 3 ≤ b.length
    · have h1 : zcomp b = [1, b.length] := by unfold zcomp; rw [if_pos hb]
      rw [h1]
      show some (List.replicate b.length 0) = some b
      rw [← hb.1]
    · have h1 : zcomp b = 0 :: b := by unfold zcomp; rw [if_neg hb]
      rw [h1]
      rfl

/-- Modelled from the spec: a tree entry is either a File or a Dir; every
entry has a name (the last path segment) and a Dir owns an ordered sequence
of named children. -/
inductive Entry where
  | file (name : String) (f : File)
  | dir (name : String) (children : List Entry)
deriving Repr

/-- The name of an entry. -/
def Entry.name : Entry → String
  | .file n _ => n
  | .dir n _ => n

/-- Whether an entry is a directory. -/
def Entry.isDir : Entry → Bool
  | .file _ _ => false
  | .dir _ _ => true

/-- Sibling lookup by name (the binary search of the implementation is
observationally a first-match lookup on the sorted sibling sequence). -/
def findEntry (cs : List Entry) (n : String) : Option Entry :=
  cs.find? (fun e => e.name == n)

/-- Modelled from the spec: `Add(name, entry)` inserts at the sorted position
and fails with AlreadyExists on a duplicate name, without mutation (the input
sequence is returned unchanged by the caller on error). -/
def addEntry : List Entry → Entry → Except VfsError (List Entry)
  | [], e => .ok [e]
  | x :: xs, e =>
    if e.name < x.name then .ok (e :: x :: xs)
    else if e.name = x.name then .error .AlreadyExists
    else (addEntry xs e).map (fun ys => x :: ys)

/-- Modelled from the spec: `Remove(name)` deletes the named child or fails
with NotExist. -/
def removeEntry : List Entry → String → Except VfsError (List Entry)
  | [], _ => .error .NotExist
  | x :: xs, n =>
    if x.name = n then .ok xs
    else (removeEntry xs n).map (fun ys => x :: ys)

/-- The sequence of names `ReadDir` reports for a sibling sequence. -/
def dirNames (cs : List Entry) : List String :=
  cs.map Entry.name

/-- The Dir invariant: sibling names strictly ascending (hence no duplicate
names). -/
def sortedD (cs : List Entry) : Prop :=
  (dirNames cs).Pairwise (fun a b => a < b)

/-- One Add/Remove operation on a Dir. -/
inductive DirOp where
  | add (e : Entry)
  | del (n : String)

/-- Applying one operation; a failing operation leaves the directory
unchanged. -/
def applyOp (cs : List Entry) : DirOp → List Entry
  | .add e =>
    match addEntry cs e with
    | .ok cs' => cs'
    | .error _ => cs
  | .del n =>
    match removeEntry cs n with
    | .ok cs' => cs'
    | .error _ => cs

/-- Applying a sequence of Add/Remove operations. -/
def applyOps (cs : List Entry) (ops : List DirOp) : List Entry :=
  ops.foldl applyOp cs

/-- Modelled from the spec: `dirEntry(path)` resolves a directory path segment
by segment, failing on the first missing or non-directory segment. -/
def dirEntry : List Entry → List String → Except VfsError (List Entry)
  | cs, [] => .ok cs
  | cs, s :: rest =>
    match findEntry cs s with
    | none => .error .NotExist
    | some (.file _ _) => .error .NotADirectory
    | some (.dir _ cs') => dirEntry cs' rest

/-- Resolving a full path to the entry it names (the root `[]` is not itself
an entry): split into parent directory and base name, as the implementation
does. -/
def lookupPath (root : List Entry) (path : List String) : Option Entry :=
  match path.getLast? with
  | none => none
  | some base =>
    match dirEntry root path.dropLast with
    | .error _ => none
    | .ok cs => findEntry cs base

/-- Replace the child with the given name. -/
def replaceEntry (cs : List Entry) (n : String) (e : Entry) : List Entry :=
  cs.map (fun x => if x.name = n then e else x)

/-- Rebuild the tree after applying `f` to the sibling sequence of the
directory at `path`. -/
def updateAt : List Entry → List String →
    (List Entry → Except VfsError (List Entry)) → Except VfsError (List Entry)
  | cs, [], f => f cs
  | cs, s :: rest, f =>
    match findEntry cs s with
    | none => .error .NotExist
    | some (.file _ _) => .error .NotADirectory
    | some (.dir n cs') =>
      (updateAt cs' rest f).map (fun cs'' => replaceEntry cs s (.dir n cs''))

/-- Modelled from the spec: storing a whole file payload in a sibling
sequence (the `WriteFile` convenience: create or truncate-and-write); fails
IsADirectory when the name is a directory. -/
def setFile : List Entry → String → List Nat → Except VfsError (List Entry)
  | [], n, d => .ok [.file n ⟨d, false⟩]
  | x :: xs, n, d =>
    if n < x.name then .ok (.file n ⟨d, false⟩ :: x :: xs)
    else if n = x.name then
      match x with
      | .dir _ _ => .error .IsADirectory
      | .file _ _ => .ok (.file n ⟨d, false⟩ :: xs)
    else (setFile xs n d).map (fun ys => x :: ys)

/-- Modelled from the spec: `WriteFile` over a tree. -/
def writeFileFS (root : List Entry) (path : List String) (data : List Nat) :
    Except VfsError (List Entry) :=
  match path.getLast? with
  | none => .error .InvalidName
  | some base => updateAt root path.dropLast (fun cs => setFile cs base data)

/-- Modelled from the spec: `ReadFile` over a tree (`Open` fails when the path
names a directory; a malformed compressed payload fails with
ContentCorruption). -/
def readFileFS (c : Codec) (root : List Entry) (path : List String) :
    Except VfsError (List Nat) :=
  match path.getLast? with
  | none => .error .IsADirectory
  | some base =>
    match dirEntry root path.dropLast with
    | .error e => .error e
    | .ok cs =>
      match findEntry cs base with
      | none => .error .NotExist
      | some (.dir _ _) => .error .IsADirectory
      | some (.file _ f) =>
        match fileData c f with
        | none => .error .ContentCorruption
        | some d => .ok d

/-- The POSIX-like open flags of the capability interface. -/
structure OpenFlags where
  create : Bool
  excl : Bool
  trunc : Bool
  read : Bool
  write : Bool
deriving DecidableEq, Repr

/-- Modelled from the spec: `OpenFile(path, flags, mode)` over a tree.
`special` records whether the requested mode asks for a special file type
(which fails Unsupported).  The result pairs the open outcome with the
possibly-updated tree (updated only when CREATE inserts a new empty file). -/
def openFileFS (c : Codec) (root : List Entry) (path : List String)
    (fl : OpenFlags) (special : Bool) :
    Except VfsError FileHandle × List Entry :=
  match path.getLast? with
  | none => (.error .InvalidName, root)
  | some base =>
    if special then (.error .Unsupported, root)
    else
      match dirEntry root path.dropLast with
      | .error e => (.error e, root)
      | .ok cs =>
        match findEntry cs base with
        | some ent =>
          if fl.create && fl.excl then (.error .AlreadyExists, root)
          else
            match ent with
            | .dir _ _ => (.error .IsADirectory, root)
            | .file _ f =>
              match (if fl.trunc then some [] else fileData c f) with
              | none => (.error .ContentCorruption, root)
              | some buf => (.ok (mkHandle buf fl.read fl.write), root)
        | none =>
          if fl.create then
            match updateAt root path.dropLast
                (fun cs' => addEntry cs' (.file base ⟨[], false⟩)) with
            | .error e => (.error e, root)
            | .ok root' => (.ok (mkHandle [] fl.read fl.write), root')
          else (.error .NotExist, root)

/-- A mount table: pairs of mount path and the mounted backend's root tree. -/
abbrev MountTable := List (List String × List Entry)

/-- Modelled from the spec: resolve a path to the innermost (longest-prefix)
matching mount among the registered mount paths. -/
def bestMount : MountTable → List String → Option (List String × List Entry)
  | [], _ => none
  | (mp, r) :: rest, p =>
    match bestMount rest p with
    | none => if mp.isPrefixOf p then some (mp, r) else none
    | some (mp', r') =>
      if mp.isPrefixOf p && decide (mp'.length < mp.length) then some (mp, r)
      else some (mp', r')

/-- Modelled from the spec: a read delegated through the Mounter: resolve to
the innermost matching mount and the sub-path relative to it; no matching
mount fails NotExist. -/
def mounterRead (c : Codec) (m : MountTable) (p : List String) :
    Except VfsError (List Nat) :=
  match bestMount m p with
  | none => .error .NotExist
  | some (mp, r) => readFileFS c r (p.drop mp.length)

/-- Modelled from the spec: a whole-file write delegated through the Mounter;
the resolved backend (identified by its unique mount path) is replaced by its
updated tree. -/
def mounterWrite (m : MountTable) (p : List String) (data : List Nat) :
    Except VfsError MountTable :=
  match bestMount m p with
  | none => .error .NotExist
  | some (mp, r) =>
    match writeFileFS r (p.drop mp.length) data with
    | .error e => .error e
    | .ok r' => .ok (m.map (fun q => if q.1 = mp then (mp, r') else q))

/-- What a Walk visitor may answer: continue, the skip-subtree control value
(`ErrSkipDir`), or any other error. -/
inductive VRes where
  | cont
  | skip
  | fail (e : Nat)
deriving DecidableEq, Repr

/-- The outcome a Walk reports: the skip sentinel escaping on a non-directory
(as the tests pin), or a propagated visitor error. -/
inductive WErr where
  | skip
  | fail (e : Nat)
deriving DecidableEq, Repr

mutual
/-- Modelled from the spec: pre-order Walk of one entry below parent path
`p`, returning the visited paths in order and the terminating error, if any.
A visitor answering skip on a directory prunes its subtree and continues; on
a file the skip value propagates as an error (as `TestWalkSkipDirOnFile`
pins); any other error aborts and propagates. -/
def walkE (v : List String → VRes) (p : List String) :
    Entry → List (List String) × Option WErr
  | .file n _ =>
    let q := p ++ [n]
    ([q],
      match v q with
      | .cont => none
      | .skip => some .skip
      | .fail e => some (.fail e))
  | .dir n cs =>
    let q := p ++ [n]
    match v q with
    | .skip => ([q], none)
    | .fail e => ([q], some (.fail e))
    | .cont =>
      let r := walkL v q cs
      (q :: r.1, r.2)

/-- Walk of a sibling sequence in order, stopping at the first error. -/
def walkL (v : List String → VRes) (p : List String) :
    List Entry → List (List String) × Option WErr
  | [] => ([], none)
  | e :: es =>
    let r := walkE v p e
    match r.2 with
    | some err => (r.1, some err)
    | none =>
      let r2 := walkL v p es
      (r.1 ++ r2.1, r2.2)
end

/-- Walk from the root `/`: the root itself is visited first. -/
def walkRoot (v : List String → VRes) (root : List Entry) :
    List (List String) × Option WErr :=
  match v [] with
  | .skip => ([[]], none)
  | .fail e => ([[]], some (.fail e))
  | .cont =>
    let r := walkL v [] root
    ([] :: r.1, r.2)

mutual
/-- The full pre-order path list of an entry below parent path `p`. -/
def preE (p : List String) : Entry → List (List String)
  | .file n _ => [p ++ [n]]
  | .dir n cs => (p ++ [n]) :: preL (p ++ [n]) cs

/-- The full pre-order path list of a sibling sequence. -/
def preL (p : List String) : List Entry → List (List String)
  | [] => []
  | e :: es => preE p e ++ preL p es
end

/-- The full pre-order path list from the root. -/
def preRoot (root : List Entry) : List (List String) :=
  [] :: preL [] root

mutual
/-- The paths of the file (non-directory) nodes of an entry. -/
def filesE (p : List String) : Entry → List (List String)
  | .file n _ => [p ++ [n]]
  | .dir n cs => filesL (p ++ [n]) cs

/-- The paths of the file nodes of a sibling sequence. -/
def filesL (p : List String) : List Entry → List (List String)
  | [] => []
  | e :: es => filesE p e ++ filesL p es
end

/-- The visitor that answers the skip-subtree control value exactly at `D`. -/
def skipAt (D : List String) : List String → VRes :=
  fun q => if q = D then .skip else .cont

/-- The visitor that answers the error `e` exactly at `D`. -/
def failAt (D : List String) (e : Nat) : List String → VRes :=
  fun q => if q = D then .fail e else .cont

/-- The prefix of `l` up to and including the first occurrence of `a`. -/
def upTo [DecidableEq α] : List α → α → List α
  | [], _ => []
  | x :: xs, a => if x = a then [x] else x :: upTo xs a

/-- The Boolean filter keeping the paths a skip at `D` still visits: those
not below `D`, plus `D` itself. -/
def keepB (D : List String) : List String → Bool :=
  fun q => !(D.isPrefixOf q) || q == D

/-- The mutable state of `adapterDirFile` (src/iofs.go): the entry list cached
on the first `ReadDir` call, and the next index to return when `n > 0`.
Entries are identified by their names. -/
structure AdapterDirFile where
  cached : Option (List String)
  nextIdx : Nat
deriving DecidableEq, Repr

/-- `adapterDirFile.ReadDir` (src/iofs.go:84-108).  `underlying` is the
outcome of `v.ReadDir(f.path)`, consulted only while the cache is empty.
`n ≤ 0` returns all remaining entries with no error (and does not advance);
`n > 0` at the end of the listing returns `io.EOF`; otherwise at most `n`
entries are returned and the index advances past them. -/
def adfReadDir (underlying : Except VfsError (List String))
    (f : AdapterDirFile) (n : Int) :
    Except VfsError (List String) × AdapterDirFile :=
  let populated : Except VfsError AdapterDirFile :=
    match f.cached with
    | some _ => .ok f
    | none =>
      match underlying with
      | .error e => .error e
      | .ok infos => .ok { f with cached := some infos }
  match populated with
  | .error e => (.error e, f)
  | .ok f' =>
    let cached := f'.cached.getD []
    if n ≤ 0 then (.ok (cached.drop f'.nextIdx), f')
    else if cached.length ≤ f'.nextIdx then (.error .EOF, f')
    else
      (.ok ((cached.drop f'.nextIdx).take n.toNat),
        { f' with nextIdx := min (f'.nextIdx + n.toNat) cached.length })

/-- Repeatedly calling `ReadDir(n)` and concatenating the batches until an
error (in particular `io.EOF`) stops the loop. -/
def drainAdf (underlying : Except VfsError (List String)) (n : Int) :
    AdapterDirFile → Nat → List String
  | _, 0 => []
  | f, fuel + 1 =>
    match adfReadDir underlying f n with
    | (.ok out, f') => out ++ drainAdf underlying n f' fuel
    | (.error _, _) => []

/-! ## Theorems -/

/-- C4: on an open handle over an N-byte buffer, `Seek` with a recognized
origin (0, 1, 2) never fails and clamps the resulting position into
`[0, N]`; in particular `Seek(huge, fromStart)` yields N and
`Seek(-huge, fromEnd)` yields 0; an unrecognized origin value aborts
(a contract violation, modelled as `none`) instead of returning an error. -/
theorem seek_clamps_and_bad_whence_aborts (h : FileHandle) (offset : Int)
    (whence : Nat) (hcl : h.closed = false) :
    (whence ≤ 2 → ∃ pos h', seekH h offset whence = some (.ok (pos, h')) ∧
        (pos : Int) =
          max 0 (min (intendedPos h offset whence) (h.buf.length : Int)) ∧
        h' = { h with off := pos }) ∧
    ((h.buf.length : Int) ≤ offset →
        seekH h offset 0 =
          some (.ok (h.buf.length, { h with off := h.buf.length }))) ∧
    (offset + (h.buf.length : Int) ≤ 0 →
        seekH h offset 2 = some (.ok (0, { h with off := 0 }))) ∧
    (2 < whence → seekH h offset whence = none) := by
  have hred : ∀ w, seekH h offset w =
      (if w ≤ 2 then
        some (.ok
          (if intendedPos h offset w < 0 then 0
            else min (intendedPos h offset w).toNat h.buf.length,
            { h with off := if intendedPos h offset w < 0 then 0
              else min (intendedPos h offset w).toNat h.buf.length }))
        else none) := by
    intro w
    unfold seekH
    rw [hcl]
    rfl
  refine ⟨?_, ?_, ?_, ?_⟩
  · intro hw
    refine ⟨_, _, by rw [hred whence, if_pos hw], ?_, rfl⟩
    by_cases hneg : intendedPos h offset whence < 0
    · rw [if_pos hneg]
      exact (max_eq_left (le_trans (min_le_left _ _) (by omega))).symm
    · rw [if_neg hneg, Nat.cast_min, Int.toNat_of_nonneg (by omega)]
      exact (max_eq_right (le_min (by omega) (by positivity))).symm
  · intro hge
    rw [hred 0, if_pos (by omega)]
    have h0 : intendedPos h offset 0 = offset := rfl
    rw [h0, if_neg (by omega)]
    have hm : min offset.toNat h.buf.length = h.buf.length := by omega
    rw [hm]
  · intro hle
    rw [hred 2, if_pos (by omega)]
    have h2 : intendedPos h offset 2 = (h.buf.length : Int) + offset := rfl
    rw [h2]
    by_cases hneg : (h.buf.length : Int) + offset < 0
    · rw [if_pos hneg]
    · rw [if_neg hneg]
      have hm : min ((h.buf.length : Int) + offset).toNat h.buf.length = 0 := by
        omega
      rw [hm]
  · intro hw
    rw [hred whence, if_neg (by omega)]

/-- Witness for C4: on the open 3-byte handle, `Seek(100, fromStart)` is
clamped to the content length 3. -/
theorem seek_clamps_and_bad_whence_aborts_witness :
    seekH (mkHandle [5, 6, 7] true true) 100 0 =
      some (.ok (3, { mkHandle [5, 6, 7] true true with off := 3 })) :=
  (seek_clamps_and_bad_whence_aborts (mkHandle [5, 6, 7] true true) 100 0
    rfl).2.1 (by decide)

/-- C3: `Write(buf)` on an open write handle at offset `o`: bytes within the
current content length overwrite in place, bytes past it are appended (the
content grows to exactly `max oldLen (o + written)`, never sparse), and the
offset advances by the number of bytes written. -/
theorem write_overwrites_then_appends (h : FileHandle) (bs : List Nat)
    (hcl : h.closed = false) (hw : h.canWrite = true)
    (hoff : h.off ≤ h.buf.length) :
    ∃ h', writeH h bs = .ok (bs.length, h') ∧
      h'.off = h.off + bs.length ∧
      h'.buf.length = max h.buf.length (h.off + bs.length) ∧
      (∀ i, i < h.off → h'.buf[i]? = h.buf[i]?) ∧
      (∀ i, h.off ≤ i → i < h.off + bs.length → h'.buf[i]? = bs[i - h.off]?) ∧
      (∀ i, h.off + bs.length ≤ i → h'.buf[i]? = h.buf[i]?) := by
  have hred : writeH h bs = .ok (bs.length,
      { h with buf := h.buf.take h.off ++ bs ++ h.buf.drop (h.off + bs.length),
               off := h.off + bs.length }) := by
    unfold writeH
    rw [hcl, hw]
    rfl
  refine ⟨_, hred, rfl, ?_, ?_, ?_, ?_⟩
  · simp only [List.length_append, List.length_take, List.length_drop]
    omega
  · intro i hi
    show ((h.buf.take h.off ++ bs) ++ h.buf.drop (h.off + bs.length))[i]? = _
    rw [List.getElem?_append_left
          (by simp only [List.length_append, List.length_take]; omega),
        List.getElem?_append_left
          (by simp only [List.length_take]; omega),
        List.getElem?_take_of_lt hi]
  · intro i hi hi2
    show ((h.buf.take h.off ++ bs) ++ h.buf.drop (h.off + bs.length))[i]? = _
    rw [List.getElem?_append_left
          (by simp only [List.length_append, List.length_take]; omega),
        List.getElem?_append_right
          (by simp only [List.length_take]; omega)]
    simp only [List.length_take, Nat.min_eq_left hoff]
  · intro i hi
    show ((h.buf.take h.off ++ bs) ++ h.buf.drop (h.off + bs.length))[i]? = _
    rw [List.getElem?_append_right
          (by simp only [List.length_append, List.length_take]; omega),
        List.getElem?_drop]
    have he : h.off + bs.length +
        (i - (h.buf.take h.off ++ bs).length) = i := by
      simp only [List.length_append, List.length_take]
      omega
    rw [he]

/-- Witness for C3: the file "ab" (bytes 97 98), after seeking to the end
(offset 2) and writing "cdef" (bytes 99 100 101 102), contains "abcdef". -/
theorem write_overwrites_then_appends_witness :
    ∃ h', writeH ⟨[97, 98], 2, false, true, true, false⟩ [99, 100, 101, 102] =
        .ok (4, h') ∧
      h'.off = 6 ∧
      h'.buf.length = 6 ∧
      (∀ i, i < 2 → h'.buf[i]? = [97, 98][i]?) ∧
      (∀ i, 2 ≤ i → i < 6 → h'.buf[i]? = [99, 100, 101, 102][i - 2]?) ∧
      (∀ i, 6 ≤ i → h'.buf[i]? = [97, 98][i]?) :=
  write_overwrites_then_appends ⟨[97, 98], 2, false, true, true, false⟩
    [99, 100, 101, 102] rfl rfl (by decide)

/-- Opening a file whose content decodes to `d` succeeds with a fresh read
handle over `d`. -/
theorem NewRFile_of_fileData {c : Codec} {f : File} {d : List Nat}
    (h : fileData c f = some d) : NewRFile c f = .ok (mkHandle d true false) := by
  unfold NewRFile
  rw [h]

/-- The content of a file storing the compressed form of `b`. -/
theorem fileData_compressed (c : Codec) (b : List Nat) :
    fileData c ⟨c.comp b, true⟩ = some b := by
  show c.decomp (c.comp b) = some b
  exact c.round b

/-- The content of a file storing `b` in plain form. -/
theorem fileData_plain (c : Codec) (b : List Nat) :
    fileData c ⟨b, false⟩ = some b := rfl

/-- C2: closing a write handle with compress-on-close enabled stores the
compressed encoding exactly when it is strictly smaller than the plain form,
keeps the plain form otherwise, never increases the stored size, and in
either case re-opening reads back exactly the bytes that were written. -/
theorem close_compresses_only_if_smaller (c : Codec) (h : FileHandle)
    (f : File) (hcl : h.closed = false) (hcc : h.compressOnClose = true) :
    ∃ f' h', closeW c h f = .ok (f', h') ∧
      (f'.compressed = true ↔ (c.comp h.buf).length < h.buf.length) ∧
      (¬ (c.comp h.buf).length < h.buf.length → f'.data = h.buf) ∧
      ((c.comp h.buf).length < h.buf.length → f'.data = c.comp h.buf) ∧
      f'.size ≤ h.buf.length ∧
      (∃ r, NewRFile c f' = .ok r ∧ r.buf = h.buf ∧ r.off = 0) ∧
      h'.closed = true := by
  have hred : closeW c h f = .ok
      ((if (c.comp h.buf).length < h.buf.length
          then { f with data := c.comp h.buf, compressed := true }
          else { f with data := h.buf, compressed := false }),
        { h with closed := true }) := by
    unfold closeW
    rw [hcl, hcc]
    rfl
  by_cases hlt : (c.comp h.buf).length < h.buf.length
  · rw [if_pos hlt] at hred
    exact ⟨_, _, hred, by simp [hlt], fun hn => absurd hlt hn,
      fun _ => rfl, le_of_lt hlt,
      ⟨mkHandle h.buf true false,
        NewRFile_of_fileData (fileData_compressed c h.buf), rfl, rfl⟩, rfl⟩
  · rw [if_neg hlt] at hred
    exact ⟨_, _, hred, by simp [hlt], fun _ => rfl,
      fun hy => absurd hy hlt, le_refl _,
      ⟨mkHandle h.buf true false,
        NewRFile_of_fileData (fileData_plain c h.buf), rfl, rfl⟩, rfl⟩

/-- Witness for C2: closing a handle holding the poorly-compressible byte
string [7, 8] (the codec's encoding is one byte longer) keeps the plain
form, and reading back returns [7, 8]. -/
theorem close_compresses_only_if_smaller_witness :
    ∃ f' h', closeW zCodec ⟨[7, 8], 2, false, true, true, true⟩ ⟨[], false⟩ =
        .ok (f', h') ∧
      (f'.compressed = true ↔ (zCodec.comp [7, 8]).length < 2) ∧
      (¬ (zCodec.comp [7, 8]).length < 2 → f'.data = [7, 8]) ∧
      ((zCodec.comp [7, 8]).length < 2 → f'.data = zCodec.comp [7, 8]) ∧
      f'.size ≤ 2 ∧
      (∃ r, NewRFile zCodec f' = .ok r ∧ r.buf = [7, 8] ∧ r.off = 0) ∧
      h'.closed = true :=
  close_compresses_only_if_smaller zCodec ⟨[7, 8], 2, false, true, true, true⟩
    ⟨[], false⟩ rfl rfl

/-- C1 (amended): for every payload P, writing P through a fresh read-write
handle, enabling compress-on-close, closing and re-opening reads back exactly
P; the file's reported `Size()` is the stored-form length: it equals `len(P)`
whenever the plain form was kept, and is at most `len(P)` always, but it is
the compressed length when the compressed form replaced the payload (the
spec-level logical size `sizeSpec` always equals `len(P)`). -/
theorem compress_on_close_roundtrip (c : Codec) (P : List Nat) :
    ∃ h₁ f' h₂ r,
      writeH (mkHandle [] true true) P = .ok (P.length, h₁) ∧
      closeW c { h₁ with compressOnClose := true } ⟨[], false⟩ =
        .ok (f', h₂) ∧
      NewRFile c f' = .ok r ∧
      r.buf = P ∧
      f'.sizeSpec c = P.length ∧
      f'.size = f'.data.length ∧
      (f'.compressed = false → f'.size = P.length) ∧
      f'.size ≤ P.length := by
  have h1eq : writeH (mkHandle [] true true) P =
      .ok (P.length, ⟨P, P.length, false, true, true, false⟩) := by
    unfold writeH mkHandle
    simp
  refine ⟨⟨P, P.length, false, true, true, false⟩, ?_⟩
  have hcl : closeW c ⟨P, P.length, false, true, true, true⟩ ⟨[], false⟩ =
      .ok ((if (c.comp P).length < P.length
          then ⟨c.comp P, true⟩ else ⟨P, false⟩),
        ⟨P, P.length, true, true, true, true⟩) := by
    unfold closeW
    rfl
  by_cases hlt : (c.comp P).length < P.length
  · rw [if_pos hlt] at hcl
    refine ⟨⟨c.comp P, true⟩, ⟨P, P.length, true, true, true, true⟩,
      mkHandle P true false, h1eq, hcl,
      NewRFile_of_fileData (fileData_compressed c P), rfl, ?_, rfl, ?_,
      le_of_lt hlt⟩
    · unfold File.sizeSpec
      rw [fileData_compressed c P]
      rfl
    · intro hfalse
      simp at hfalse
  · rw [if_neg hlt] at hcl
    exact ⟨⟨P, false⟩, ⟨P, P.length, true, true, true, true⟩,
      mkHandle P true false, h1eq, hcl,
      NewRFile_of_fileData (fileData_plain c P), rfl, rfl, rfl,
      fun _ => rfl, le_refl _⟩

/-- Counterexample to C1 as stated: for the compressible payload
P = [0, 0, 0], the compress-on-close pipeline stores the strictly smaller
compressed form and the file's reported `Size()` is 2, not `len(P) = 3`
(the reported size is the stored length, as the repository's `TestCompress`
requires: the sum of reported sizes strictly shrinks after compression);
reading the file back still yields P exactly. -/
theorem compress_on_close_size_counterexample :
    ∃ h₂ r,
      writeH (mkHandle [] true true) [0, 0, 0] =
        .ok (3, ⟨[0, 0, 0], 3, false, true, true, false⟩) ∧
      closeW zCodec ⟨[0, 0, 0], 3, false, true, true, true⟩ ⟨[], false⟩ =
        .ok (⟨[1, 3], true⟩, h₂) ∧
      NewRFile zCodec ⟨[1, 3], true⟩ = .ok r ∧
      r.buf = [0, 0, 0] ∧
      File.size ⟨[1, 3], true⟩ = 2 ∧
      ([0, 0, 0] : List Nat).length = 3 ∧
      ¬ File.size ⟨[1, 3], true⟩ = ([0, 0, 0] : List Nat).length :=
  ⟨⟨[0, 0, 0], 3, true, true, true, true⟩, mkHandle [0, 0, 0] true false,
    rfl, rfl, rfl, rfl, rfl, rfl, by decide⟩

/-- C9: a stored payload flagged compressed that does not decode fails at
open time with the content-corruption error, for both the read handle and
the read-write handle constructors; a handle whose open succeeded holds the
fully decompressed payload as its working buffer, and `Read` never reports
content corruption. -/
theorem corrupt_compressed_fails_at_open (c : Codec) (f : File)
    (hc : f.compressed = true) (hbad : c.decomp f.data = none) :
    NewRFile c f = .error .ContentCorruption ∧
    (∀ rd wr, NewWFile c f rd wr = .error .ContentCorruption) ∧
    (∀ g h, NewRFile c g = .ok h → some h.buf = fileData c g) ∧
    (∀ h n, readH h n ≠ .error .ContentCorruption) := by
  have hdata : fileData c f = none := by
    unfold fileData
    rw [hc, hbad]
    rfl
  refine ⟨?_, fun rd wr => ?_, fun g h hok => ?_, fun h n => ?_⟩
  · unfold NewRFile
    rw [hdata]
  · unfold NewWFile
    rw [hdata]
  · unfold NewRFile at hok
    cases hg : fileData c g with
    | none => rw [hg] at hok; exact absurd hok (by simp)
    | some d =>
      rw [hg] at hok
      simp only [Except.ok.injEq] at hok
      rw [← hok]
      rfl
  · unfold readH
    split
    · simp
    · split
      · simp
      · split
        · simp
        · simp

/-- Witness for C9: the file whose stored bytes [2] are flagged compressed
but decode to nothing fails at open with ContentCorruption. -/
theorem corrupt_compressed_fails_at_open_witness :
    NewRFile zCodec ⟨[2], true⟩ = .error .ContentCorruption ∧
    (∀ rd wr, NewWFile zCodec ⟨[2], true⟩ rd wr =
      .error .ContentCorruption) ∧
    (∀ g h, NewRFile zCodec g = .ok h → some h.buf = fileData zCodec g) ∧
    (∀ h n, readH h n ≠ .error .ContentCorruption) :=
  corrupt_compressed_fails_at_open zCodec ⟨[2], true⟩ rfl rfl

/-- `adapterDirFile.ReadDir` on a populated cache, written as one case
split. -/
theorem adfReadDir_cached (u : Except VfsError (List String))
    (l : List String) (f : AdapterDirFile) (hc : f.cached = some l)
    (n : Int) :
    adfReadDir u f n =
      (if n ≤ 0 then (.ok (l.drop f.nextIdx), f)
        else if l.length ≤ f.nextIdx then (.error .EOF, f)
        else (.ok ((l.drop f.nextIdx).take n.toNat),
          { f with nextIdx := min (f.nextIdx + n.toNat) l.length })) := by
  simp only [adfReadDir, hc, Option.getD_some]

/-- Draining a populated directory handle with a positive batch size returns
exactly the remaining entries, in order. -/
theorem drainAdf_cached (u : Except VfsError (List String))
    (l : List String) (n : Int) (hn : (0 : Int) < n) :
    ∀ fuel (f : AdapterDirFile), f.cached = some l →
      l.length - f.nextIdx < fuel →
      drainAdf u n f fuel = l.drop f.nextIdx := by
  intro fuel
  induction fuel with
  | zero =>
    intro f _ hlt
    omega
  | succ k ih =>
    intro f hc hlt
    by_cases hend : l.length ≤ f.nextIdx
    · have hstep : adfReadDir u f n = (.error .EOF, f) := by
        rw [adfReadDir_cached u l f hc n, if_neg (by omega), if_pos hend]
      simp only [drainAdf, hstep]
      exact (List.drop_eq_nil_of_le hend).symm
    · have hstep : adfReadDir u f n =
          (.ok ((l.drop f.nextIdx).take n.toNat),
            { f with nextIdx := min (f.nextIdx + n.toNat) l.length }) := by
        rw [adfReadDir_cached u l f hc n, if_neg (by omega), if_neg hend]
      simp only [drainAdf, hstep]
      rw [ih { f with nextIdx := min (f.nextIdx + n.toNat) l.length } hc
        (by show l.length - min (f.nextIdx + n.toNat) l.length < k; omega)]
      show (l.drop f.nextIdx).take n.toNat ++
        l.drop (min (f.nextIdx + n.toNat) l.length) = l.drop f.nextIdx
      have hdrop : l.drop (min (f.nextIdx + n.toNat) l.length) =
          (l.drop f.nextIdx).drop n.toNat := by
        rw [List.drop_drop]
        rcases Nat.le_total (f.nextIdx + n.toNat) l.length with hle | hle
        · rw [Nat.min_eq_left hle]
        · rw [Nat.min_eq_right hle, List.drop_eq_nil_of_le hle]
          exact List.drop_eq_nil_of_le (le_refl _)
      rw [hdrop, List.take_append_drop]

/-- C10: the read-only adapter's directory handle batches correctly:
`ReadDir(n)` with `n > 0` returns at most `n` entries, namely the next slice
of the cached listing, and advances the position so that successive calls
return successive batches (draining with any positive `n` reconstructs the
whole remaining listing in order); at the end of the directory it returns
`io.EOF` with an empty result; `ReadDir(n)` with `n ≤ 0` returns all
remaining entries with no error; and the cache is populated from the
underlying `ReadDir` on first use. -/
theorem adapter_readdir_batching (u : Except VfsError (List String))
    (l : List String) (f : AdapterDirFile) (n : Int)
    (hc : f.cached = some l) :
    ((0 : Int) < n → ∀ out f', adfReadDir u f n = (.ok out, f') →
        out.length ≤ n.toNat ∧ out = (l.drop f.nextIdx).take n.toNat ∧
        f'.cached = some l ∧
        f'.nextIdx = min (f.nextIdx + n.toNat) l.length) ∧
    ((0 : Int) < n → l.length ≤ f.nextIdx →
        adfReadDir u f n = (.error .EOF, f)) ∧
    (n ≤ 0 → adfReadDir u f n = (.ok (l.drop f.nextIdx), f)) ∧
    ((0 : Int) < n → ∀ fuel, l.length - f.nextIdx < fuel →
        drainAdf u n f fuel = l.drop f.nextIdx) ∧
    (∀ g : AdapterDirFile, g.cached = none → u = .ok l →
        adfReadDir u g n = adfReadDir u { g with cached := some l } n) := by
  refine ⟨?_, ?_, ?_, ?_, ?_⟩
  · intro hn out f' heq
    rw [adfReadDir_cached u l f hc n, if_neg (by omega)] at heq
    by_cases hend : l.length ≤ f.nextIdx
    · rw [if_pos hend] at heq
      exact absurd (congrArg Prod.fst heq) (by simp)
    · rw [if_neg hend] at heq
      have h1 := congrArg Prod.fst heq
      have h2 := congrArg Prod.snd heq
      simp only [Except.ok.injEq] at h1
      simp only [] at h2
      refine ⟨?_, h1.symm, ?_, ?_⟩
      · rw [← h1]
        exact List.length_take_le _ _
      · rw [← h2]
        exact hc
      · rw [← h2]
  · intro hn hend
    rw [adfReadDir_cached u l f hc n, if_neg (by omega), if_pos hend]
  · intro h0
    rw [adfReadDir_cached u l f hc n, if_pos h0]
  · intro hn
    exact fun fuel hlt => drainAdf_cached u l n hn fuel f hc hlt
  · intro g hg hu
    unfold adfReadDir
    rw [hg, hu]

/-- Witness for C10: on a two-entry directory, the first `ReadDir(1)` call
returns the first entry and advances, and draining with batch size 1 returns
both entries in order. -/
theorem adapter_readdir_batching_witness :
    ((0 : Int) < 1 → ∀ out f',
        adfReadDir (.ok ["a", "b"]) ⟨some ["a", "b"], 0⟩ 1 = (.ok out, f') →
        out.length ≤ 1 ∧ out = ["a"] ∧ f'.cached = some ["a", "b"] ∧
        f'.nextIdx = 1) ∧
    ((0 : Int) < 1 → 2 ≤ 0 →
        adfReadDir (.ok ["a", "b"]) ⟨some ["a", "b"], 0⟩ 1 =
          (.error .EOF, ⟨some ["a", "b"], 0⟩)) ∧
    ((1 : Int) ≤ 0 →
        adfReadDir (.ok ["a", "b"]) ⟨some ["a", "b"], 0⟩ 1 =
          (.ok ["a", "b"], ⟨some ["a", "b"], 0⟩)) ∧
    ((0 : Int) < 1 → ∀ fuel, 2 < fuel →
        drainAdf (.ok ["a", "b"]) 1 ⟨some ["a", "b"], 0⟩ fuel = ["a", "b"]) ∧
    (∀ g : AdapterDirFile, g.cached = none →
        (.ok ["a", "b"] : Except VfsError (List String)) = .ok ["a", "b"] →
        adfReadDir (.ok ["a", "b"]) g 1 =
          adfReadDir (.ok ["a", "b"]) { g with cached := some ["a", "b"] } 1) :=
  adapter_readdir_batching (.ok ["a", "b"]) ["a", "b"]
    ⟨some ["a", "b"], 0⟩ 1 rfl

/-- C5: `OpenFile` with CREATE and EXCLUSIVE on a path that resolves to an
existing entry fails with AlreadyExists and returns the file-system tree
unchanged (every entry, including the target, is untouched). -/
theorem openfile_create_excl_existing_fails (c : Codec) (root : List Entry)
    (path : List String) (fl : OpenFlags) (hcr : fl.create = true)
    (hex : fl.excl = true) (hx : (lookupPath root path).isSome = true) :
    openFileFS c root path fl false = (.error .AlreadyExists, root) := by
  unfold lookupPath at hx
  unfold openFileFS
  cases hl : path.getLast? with
  | none =>
    rw [hl] at hx
    simp at hx
  | some base =>
    simp only [hl] at hx ⊢
    cases hd : dirEntry root path.dropLast with
    | error e =>
      simp only [hd] at hx
      simp at hx
    | ok cs =>
      simp only [hd] at hx ⊢
      cases hf : findEntry cs base with
      | none =>
        simp only [hf] at hx
        simp at hx
      | some ent =>
        simp only [hf, hcr, hex, Bool.and_self, Bool.false_eq_true, if_false]
        simp

/-- Witness for C5: CREATE|EXCLUSIVE on the existing file `f` fails with
AlreadyExists and the one-entry tree is returned unchanged. -/
theorem openfile_create_excl_existing_fails_witness :
    openFileFS zCodec [.file "f" ⟨[120], false⟩] ["f"]
        ⟨true, true, false, false, true⟩ false =
      (.error .AlreadyExists, [.file "f" ⟨[120], false⟩]) :=
  openfile_create_excl_existing_fails zCodec [.file "f" ⟨[120], false⟩]
    ["f"] ⟨true, true, false, false, true⟩ rfl rfl rfl

/-- `dirNames` of a cons. -/
theorem dirNames_cons (x : Entry) (xs : List Entry) :
    dirNames (x :: xs) = x.name :: dirNames xs := rfl

/-- Every name in a successful `Add` result is the inserted name or was
already present. -/
theorem mem_dirNames_addEntry {cs : List Entry} {e : Entry}
    {cs' : List Entry} (h : addEntry cs e = .ok cs') :
    ∀ b, b ∈ dirNames cs' → b = e.name ∨ b ∈ dirNames cs := by
  induction cs generalizing cs' with
  | nil =>
    cases h
    intro b hb
    rw [dirNames_cons] at hb
    rcases List.mem_cons.mp hb with hb | hb
    · exact Or.inl hb
    · cases hb
  | cons x xs ih =>
    unfold addEntry at h
    by_cases h1 : e.name < x.name
    · rw [if_pos h1] at h
      cases h
      intro b hb
      rw [dirNames_cons] at hb
      rcases List.mem_cons.mp hb with hb | hb
      · exact Or.inl hb
      · exact Or.inr hb
    · rw [if_neg h1] at h
      by_cases h2 : e.name = x.name
      · rw [if_pos h2] at h
        cases h
      · rw [if_neg h2] at h
        cases hrec : addEntry xs e with
        | error er =>
          rw [hrec] at h
          cases h
        | ok ys =>
          rw [hrec] at h
          cases h
          intro b hb
          rw [dirNames_cons] at hb
          rcases List.mem_cons.mp hb with hb | hb
          · exact Or.inr (by rw [dirNames_cons, hb]; exact List.mem_cons_self _ _)
          · rcases ih hrec b hb with h' | h'
            · exact Or.inl h'
            · exact Or.inr (by rw [dirNames_cons]; exact List.mem_cons_of_mem _ h')

/-- A successful `Add` preserves the strictly-ascending sibling order. -/
theorem sortedD_addEntry {cs : List Entry} {e : Entry} {cs' : List Entry}
    (hs : sortedD cs) (h : addEntry cs e = .ok cs') : sortedD cs' := by
  induction cs generalizing cs' with
  | nil =>
    cases h
    simp [sortedD, dirNames]
  | cons x xs ih =>
    unfold addEntry at h
    unfold sortedD at hs ⊢
    rw [dirNames_cons, List.pairwise_cons] at hs
    by_cases h1 : e.name < x.name
    · rw [if_pos h1] at h
      cases h
      rw [dirNames_cons, List.pairwise_cons, dirNames_cons]
      constructor
      · intro b hb
        rcases List.mem_cons.mp hb with rfl | hb
        · exact h1
        · exact lt_trans h1 (hs.1 b hb)
      · rw [List.pairwise_cons]
        exact hs
    · rw [if_neg h1] at h
      by_cases h2 : e.name = x.name
      · rw [if_pos h2] at h
        cases h
      · rw [if_neg h2] at h
        cases hrec : addEntry xs e with
        | error er =>
          rw [hrec] at h
          cases h
        | ok ys =>
          rw [hrec] at h
          cases h
          have hys := ih hs.2 hrec
          rw [dirNames_cons, List.pairwise_cons]
          refine ⟨?_, hys⟩
          intro b hb
          rcases mem_dirNames_addEntry hrec b hb with heq | hmem
          · subst heq
            rcases lt_trichotomy x.name e.name with hlt | heq2 | hgt
            · exact hlt
            · exact absurd heq2.symm h2
            · exact absurd hgt h1
          · exact hs.1 b hmem

/-- Every name in a successful `Remove` result was already present. -/
theorem mem_dirNames_removeEntry {cs : List Entry} {n : String}
    {cs' : List Entry} (h : removeEntry cs n = .ok cs') :
    ∀ b, b ∈ dirNames cs' → b ∈ dirNames cs := by
  induction cs generalizing cs' with
  | nil => cases h
  | cons x xs ih =>
    unfold removeEntry at h
    by_cases h1 : x.name = n
    · rw [if_pos h1] at h
      cases h
      intro b hb
      rw [dirNames_cons]
      exact List.mem_cons_of_mem _ hb
    · rw [if_neg h1] at h
      cases hrec : removeEntry xs n with
      | error er =>
        rw [hrec] at h
        cases h
      | ok ys =>
        rw [hrec] at h
        cases h
        intro b hb
        rw [dirNames_cons] at hb ⊢
        rcases List.mem_cons.mp hb with hb | hb
        · exact hb ▸ List.mem_cons_self _ _
        · exact List.mem_cons_of_mem _ (ih hrec b hb)

/-- A successful `Remove` preserves the strictly-ascending sibling order. -/
theorem sortedD_removeEntry {cs : List Entry} {n : String}
    {cs' : List Entry} (hs : sortedD cs) (h : removeEntry cs n = .ok cs') :
    sortedD cs' := by
  induction cs generalizing cs' with
  | nil => cases h
  | cons x xs ih =>
    unfold removeEntry at h
    unfold sortedD at hs ⊢
    rw [dirNames_cons, List.pairwise_cons] at hs
    by_cases h1 : x.name = n
    · rw [if_pos h1] at h
      cases h
      exact hs.2
    · rw [if_neg h1] at h
      cases hrec : removeEntry xs n with
      | error er =>
        rw [hrec] at h
        cases h
      | ok ys =>
        rw [hrec] at h
        cases h
        have hys := ih hs.2 hrec
        rw [dirNames_cons, List.pairwise_cons]
        exact ⟨fun b hb => hs.1 b (mem_dirNames_removeEntry hrec b hb), hys⟩

/-- `Add` of a name already present in a sorted directory fails with
AlreadyExists. -/
theorem addEntry_duplicate {cs : List Entry} {e : Entry} (hs : sortedD cs)
    (hm : e.name ∈ dirNames cs) : addEntry cs e = .error .AlreadyExists := by
  induction cs with
  | nil => cases hm
  | cons x xs ih =>
    unfold sortedD at hs
    rw [dirNames_cons, List.pairwise_cons] at hs
    rw [dirNames_cons] at hm
    unfold addEntry
    rcases List.mem_cons.mp hm with h | h
    · rw [if_neg (by rw [h]; exact lt_irrefl _), if_pos h]
    · have hx : x.name < e.name := hs.1 e.name h
      have hne1 : ¬ e.name < x.name := fun hlt =>
        absurd (lt_trans hlt hx) (lt_irrefl _)
      have hne2 : ¬ e.name = x.name := fun he => by
        rw [he] at hx
        exact absurd hx (lt_irrefl _)
      rw [if_neg hne1, if_neg hne2, ih hs.2 h]
      rfl

/-- Applying any single Add/Remove operation preserves the sibling-order
invariant. -/
theorem sortedD_applyOp {cs : List Entry} (hs : sortedD cs) (op : DirOp) :
    sortedD (applyOp cs op) := by
  cases op with
  | add e =>
    cases hrec : addEntry cs e with
    | error er => simpa only [applyOp, hrec] using hs
    | ok ys =>
      simp only [applyOp, hrec]
      exact sortedD_addEntry hs hrec
  | del n =>
    cases hrec : removeEntry cs n with
    | error er => simpa only [applyOp, hrec] using hs
    | ok ys =>
      simp only [applyOp, hrec]
      exact sortedD_removeEntry hs hrec

/-- Applying any sequence of Add/Remove operations preserves the
sibling-order invariant. -/
theorem sortedD_applyOps (ops : List DirOp) :
    ∀ cs : List Entry, sortedD cs → sortedD (applyOps cs ops) := by
  induction ops with
  | nil => exact fun _ hs => hs
  | cons op rest ih =>
    intro cs hs
    exact ih (applyOp cs op) (sortedD_applyOp hs op)

/-- C6: after any sequence of Add/Remove operations starting from the empty
directory, the names `ReadDir` reports are strictly ascending with no
duplicates; and `Add` of a name already present in a sorted directory fails
with AlreadyExists and leaves the directory unchanged. -/
theorem dir_sorted_and_duplicate_add_fails (ops : List DirOp)
    (d : List Entry) (e : Entry) (hs : sortedD d)
    (hm : e.name ∈ dirNames d) :
    (dirNames (applyOps [] ops)).Pairwise (fun a b => a < b) ∧
    (dirNames (applyOps [] ops)).Nodup ∧
    addEntry d e = .error .AlreadyExists ∧
    applyOp d (.add e) = d := by
  have hsorted : sortedD (applyOps [] ops) :=
    sortedD_applyOps ops [] (by simp [sortedD, dirNames])
  refine ⟨hsorted, hsorted.imp ne_of_lt, addEntry_duplicate hs hm, ?_⟩
  simp only [applyOp, addEntry_duplicate hs hm]

/-- If no mount path is a prefix of the path, resolution finds nothing. -/
theorem bestMount_none_of_no_prefix (m : MountTable) (p : List String)
    (h : ∀ q ∈ m, ¬ q.1 <+: p) : bestMount m p = none := by
  induction m with
  | nil => rfl
  | cons q0 rest ih =>
    obtain ⟨mp, r⟩ := q0
    have hrest := ih (fun q hq => h q (List.mem_cons_of_mem _ hq))
    have hmp : ¬ mp.isPrefixOf p = true := fun hp =>
      h (mp, r) (List.mem_cons_self _ _) (List.isPrefixOf_iff_prefix.mp hp)
    simp only [bestMount, hrest]
    rw [if_neg hmp]

/-- If resolution finds nothing, no mount path is a prefix of the path. -/
theorem no_prefix_of_bestMount_none (m : MountTable) (p : List String)
    (h : bestMount m p = none) : ∀ q ∈ m, ¬ q.1 <+: p := by
  induction m with
  | nil =>
    intro q hq
    cases hq
  | cons q0 rest ih =>
    obtain ⟨mp, r⟩ := q0
    cases hbm : bestMount rest p with
    | some q' =>
      exfalso
      simp only [bestMount, hbm] at h
      split at h <;> simp at h
    | none =>
      simp only [bestMount, hbm] at h
      intro q hq
      rcases List.mem_cons.mp hq with rfl | hq'
      · intro hpre
        rw [if_pos (List.isPrefixOf_iff_prefix.mpr hpre)] at h
        cases h
      · exact ih hbm q hq'

/-- The mount that resolution returns is a registered mount whose path is a
prefix of the request and is of maximal length among the matching mounts
(the innermost mount). -/
theorem bestMount_spec {m : MountTable} {p mp : List String}
    {r : List Entry} (h : bestMount m p = some (mp, r)) :
    (mp, r) ∈ m ∧ mp <+: p ∧
      ∀ q ∈ m, q.1 <+: p → q.1.length ≤ mp.length := by
  induction m generalizing mp r with
  | nil => cases h
  | cons q0 rest ih =>
    obtain ⟨mp0, r0⟩ := q0
    cases hbm : bestMount rest p with
    | none =>
      simp only [bestMount, hbm] at h
      by_cases hp : mp0.isPrefixOf p = true
      · rw [if_pos hp] at h
        cases h
        refine ⟨List.mem_cons_self _ _, List.isPrefixOf_iff_prefix.mp hp, ?_⟩
        intro q hq hqp
        rcases List.mem_cons.mp hq with rfl | hq'
        · exact le_refl _
        · exact absurd hqp (no_prefix_of_bestMount_none rest p hbm q hq')
      · rw [if_neg hp] at h
        cases h
    | some q' =>
      obtain ⟨mp', r'⟩ := q'
      simp only [bestMount, hbm] at h
      have ihs := ih hbm
      by_cases hc : (mp0.isPrefixOf p && decide (mp'.length < mp0.length))
          = true
      · rw [if_pos hc] at h
        cases h
        obtain ⟨hpre, hlen⟩ := Bool.and_eq_true_iff.mp hc
        have hlen' : mp'.length < mp.length := of_decide_eq_true hlen
        refine ⟨List.mem_cons_self _ _,
          List.isPrefixOf_iff_prefix.mp hpre, ?_⟩
        intro q hq hqp
        rcases List.mem_cons.mp hq with rfl | hq'
        · exact le_refl _
        · exact le_trans (ihs.2.2 q hq' hqp) (le_of_lt hlen')
      · rw [if_neg hc] at h
        cases h
        refine ⟨List.mem_cons_of_mem _ ihs.1, ihs.2.1, ?_⟩
        intro q hq hqp
        rcases List.mem_cons.mp hq with rfl | hq'
        · have hnlt : ¬ mp.length < mp0.length := by
            intro hlt
            exact hc (by
              simp [List.isPrefixOf_iff_prefix.mpr hqp, hlt])
          simpa using Nat.le_of_not_lt hnlt
        · exact ihs.2.2 q hq' hqp

/-- Looking up the stored name at the head of a sibling sequence. -/
theorem findEntry_cons_self {x : Entry} {xs : List Entry} {n : String}
    (h : x.name = n) : findEntry (x :: xs) n = some x := by
  unfold findEntry
  rw [List.find?_cons_of_pos]
  simp [h]

/-- Lookup skips a head with a different name. -/
theorem findEntry_cons_ne {x : Entry} {xs : List Entry} {n : String}
    (h : ¬ x.name = n) : findEntry (x :: xs) n = findEntry xs n := by
  unfold findEntry
  rw [List.find?_cons_of_neg]
  simp [h]

/-- Storing a payload under a name that is not a directory succeeds and the
stored file is found afterwards. -/
theorem setFile_ok {cs : List Entry} {n : String} {d : List Nat}
    (h : ∀ e, findEntry cs n = some e → e.isDir = false) :
    ∃ cs', setFile cs n d = .ok cs' ∧
      findEntry cs' n = some (.file n ⟨d, false⟩) := by
  induction cs with
  | nil =>
    exact ⟨[.file n ⟨d, false⟩], rfl, findEntry_cons_self rfl⟩
  | cons x xs ih =>
    by_cases h1 : n < x.name
    · refine ⟨_, by unfold setFile; rw [if_pos h1], ?_⟩
      exact findEntry_cons_self rfl
    · by_cases h2 : n = x.name
      · have hfind : findEntry (x :: xs) n = some x := findEntry_cons_self h2.symm
        have hx := h x hfind
        cases x with
        | dir nm cs0 => simp [Entry.isDir] at hx
        | file nm f0 =>
          refine ⟨.file n ⟨d, false⟩ :: xs, ?_, findEntry_cons_self rfl⟩
          unfold setFile
          rw [if_neg h1, if_pos h2]
      · have hrest : ∀ e, findEntry xs n = some e → e.isDir = false := by
          intro e he
          apply h e
          rw [findEntry_cons_ne (fun hx => h2 hx.symm)]
          exact he
        obtain ⟨ys, hys, hfind⟩ := ih hrest
        refine ⟨x :: ys, ?_, ?_⟩
        · unfold setFile
          rw [if_neg h1, if_neg h2, hys]
          rfl
        · rw [findEntry_cons_ne (fun hx => h2 hx.symm)]
          exact hfind

/-- C7: Mounter path resolution picks the innermost (longest-prefix)
registered mount; with backend A mounted at `/` and backend B mounted at
`/sub`, writing a payload at the composed path `/sub/f` updates B (A is left
unchanged) and reading `/sub/f` back returns B's data; and when no
registered mount path is a prefix of the path, reads and writes fail with
NotExist. -/
theorem mounter_innermost_and_no_match (c : Codec) (m : MountTable)
    (p : List String) (A B : List Entry) (P : List Nat)
    (hB : ∀ e, findEntry B "f" = some e → e.isDir = false) :
    (∀ mp r, bestMount m p = some (mp, r) →
        (mp, r) ∈ m ∧ mp <+: p ∧
        ∀ q ∈ m, q.1 <+: p → q.1.length ≤ mp.length) ∧
    ((∀ q ∈ m, ¬ q.1 <+: p) →
        mounterRead c m p = .error .NotExist ∧
        ∀ data, mounterWrite m p data = .error .NotExist) ∧
    (∃ B', mounterWrite [([], A), (["sub"], B)] ["sub", "f"] P =
        .ok [([], A), (["sub"], B')] ∧
      mounterRead c [([], A), (["sub"], B')] ["sub", "f"] = .ok P) := by
  refine ⟨fun mp r h => bestMount_spec h, ?_, ?_⟩
  · intro hno
    have h0 := bestMount_none_of_no_prefix m p hno
    constructor
    · unfold mounterRead
      rw [h0]
    · intro data
      unfold mounterWrite
      rw [h0]
  · obtain ⟨B', hset, hfind⟩ := @setFile_ok B "f" P hB
    refine ⟨B', ?_, ?_⟩
    · have hred : mounterWrite [([], A), (["sub"], B)] ["sub", "f"] P =
          (match setFile B "f" P with
            | .error e => .error e
            | .ok r' => .ok [([], A), (["sub"], r')]) := rfl
      rw [hset] at hred
      exact hred
    · have hred2 : mounterRead c [([], A), (["sub"], B')] ["sub", "f"] =
          (match findEntry B' "f" with
            | none => .error .NotExist
            | some (.dir _ _) => .error .IsADirectory
            | some (.file _ f) =>
              match fileData c f with
              | none => .error .ContentCorruption
              | some d => .ok d) := rfl
      rw [hfind] at hred2
      exact hred2

/-- Witness for C7: with the empty table nothing matches, and with A and B
both empty backends the `/sub/f` write-then-read scenario returns the
written byte. -/
theorem mounter_innermost_and_no_match_witness :
    (∀ mp r, bestMount ([] : MountTable) [] = some (mp, r) →
        (mp, r) ∈ ([] : MountTable) ∧ mp <+: [] ∧
        ∀ q ∈ ([] : MountTable), q.1 <+: [] → q.1.length ≤ mp.length) ∧
    ((∀ q ∈ ([] : MountTable), ¬ q.1 <+: []) →
        mounterRead zCodec [] [] = .error .NotExist ∧
        ∀ data, mounterWrite [] [] data = .error .NotExist) ∧
    (∃ B', mounterWrite [([], []), (["sub"], [])] ["sub", "f"] [7] =
        .ok [([], []), (["sub"], B')] ∧
      mounterRead zCodec [([], []), (["sub"], B')] ["sub", "f"] = .ok [7]) :=
  mounter_innermost_and_no_match zCodec [] [] [] [] [7]
    (fun _ he => nomatch he)

/-- A prefix of `p ++ [n]` is a prefix of `p` or all of `p ++ [n]`. -/
theorem prefix_snoc_cases {D p : List String} {n : String}
    (h : D <+: p ++ [n]) : D <+: p ∨ D = p ++ [n] := by
  by_cases hlen : D.length ≤ p.length
  · exact Or.inl (List.prefix_of_prefix_length_le h (List.prefix_append p [n])
      hlen)
  · right
    apply h.eq_of_length
    have := h.length_le
    simp only [List.length_append, List.length_cons, List.length_nil] at this ⊢
    omega

mutual
/-- Every pre-order path of an entry strictly extends the parent path. -/
theorem mem_preE_strict (e : Entry) (p q : List String)
    (h : q ∈ preE p e) : p <+: q ∧ p.length < q.length := by
  cases e with
  | file n f =>
    rw [preE] at h
    rcases List.mem_cons.mp h with rfl | h'
    · exact ⟨List.prefix_append p [n], by simp⟩
    · cases h'
  | dir n cs =>
    rw [preE] at h
    rcases List.mem_cons.mp h with rfl | h'
    · exact ⟨List.prefix_append p [n], by simp⟩
    · have hrec := mem_preL_strict cs (p ++ [n]) q h'
      refine ⟨(List.prefix_append p [n]).trans hrec.1, ?_⟩
      have := hrec.2
      simp only [List.length_append, List.length_cons, List.length_nil]
        at this
      omega

/-- Every pre-order path of a sibling sequence strictly extends the parent
path. -/
theorem mem_preL_strict (cs : List Entry) (p q : List String)
    (h : q ∈ preL p cs) : p <+: q ∧ p.length < q.length := by
  cases cs with
  | nil => cases h
  | cons e es =>
    rw [preL] at h
    rcases List.mem_append.mp h with h' | h'
    · exact mem_preE_strict e p q h'
    · exact mem_preL_strict es p q h'
end

/-- `upTo` ignores the part after the first occurrence. -/
theorem upTo_append_left [DecidableEq α] {l1 l2 : List α} {a : α}
    (h : a ∈ l1) : upTo (l1 ++ l2) a = upTo l1 a := by
  induction l1 with
  | nil => cases h
  | cons x xs ih =>
    by_cases hx : x = a
    · simp [upTo, hx]
    · rcases List.mem_cons.mp h with heq | hmem
      · exact absurd heq.symm hx
      · simp [upTo, hx, ih hmem]

/-- `upTo` passes over a part without the element. -/
theorem upTo_append_right [DecidableEq α] {l1 l2 : List α} {a : α}
    (h : a ∉ l1) : upTo (l1 ++ l2) a = l1 ++ upTo l2 a := by
  induction l1 with
  | nil => rfl
  | cons x xs ih =>
    have hx : ¬ x = a := fun heq => h (heq ▸ List.mem_cons_self _ _)
    simp [upTo, hx, ih (fun hmem => h (List.mem_cons_of_mem _ hmem))]

/-- `D` itself passes the skip filter. -/
theorem keepB_self (D : List String) : keepB D D = true := by
  simp [keepB]

/-- A path not below `D` passes the skip filter. -/
theorem keepB_of_not_below {D q : List String} (h : ¬ D <+: q) :
    keepB D q = true := by
  have hb : D.isPrefixOf q = false := by
    rw [Bool.eq_false_iff]
    intro hb
    exact h (List.isPrefixOf_iff_prefix.mp hb)
  simp [keepB, hb]

/-- A path strictly below `D` is dropped by the skip filter. -/
theorem keepB_eq_false {D q : List String} (h1 : D <+: q) (h2 : ¬ q = D) :
    keepB D q = false := by
  simp [keepB, List.isPrefixOf_iff_prefix.mpr h1, h2]

mutual
/-- Walking one entry with the visitor that skips at directory path `D`
(which is not a file path in this region) visits exactly the pre-order paths
that are not strictly below `D`, and finishes without error. -/
theorem walkE_skipAt (D : List String) (e : Entry) (p : List String)
    (hp : ¬ D <+: p) (hf : D ∉ filesE p e) :
    walkE (skipAt D) p e = ((preE p e).filter (keepB D), none) := by
  cases e with
  | file n f =>
    have hne : ¬ p ++ [n] = D := by
      intro heq
      exact hf (by rw [filesE, heq]; exact List.mem_cons_self _ _)
    have hnp : ¬ D <+: p ++ [n] := by
      intro hpre
      rcases prefix_snoc_cases hpre with h' | h'
      · exact hp h'
      · exact hne h'.symm
    have hfil : (preE p (.file n f)).filter (keepB D) = [p ++ [n]] := by
      rw [preE, List.filter_cons_of_pos (keepB_of_not_below hnp)]
      rfl
    rw [hfil]
    simp only [walkE, skipAt, if_neg hne]
  | dir n cs =>
    by_cases hq : p ++ [n] = D
    · have hfil : (preE p (.dir n cs)).filter (keepB D) = [p ++ [n]] := by
        rw [preE, List.filter_cons_of_pos (by rw [hq]; exact keepB_self D)]
        rw [List.filter_eq_nil_iff.mpr ?_]
        intro r hr
        have hst := mem_preL_strict cs (p ++ [n]) r hr
        rw [hq] at hst
        have hrne : ¬ r = D := by
          intro heq
          rw [heq] at hst
          exact absurd hst.2 (lt_irrefl _)
        rw [keepB_eq_false hst.1 hrne]
        simp
      rw [hfil]
      simp only [walkE, skipAt, if_pos hq]
    · have hnp : ¬ D <+: p ++ [n] := by
        intro hpre
        rcases prefix_snoc_cases hpre with h' | h'
        · exact hp h'
        · exact hq h'.symm
      have hrec := walkL_skipAt D cs (p ++ [n]) hnp
        (by rw [filesE] at hf; exact hf)
      simp only [walkE, skipAt, if_neg hq, preE]
      rw [hrec, List.filter_cons_of_pos (keepB_of_not_below hnp)]

/-- Walking a sibling sequence with the skip-at-`D` visitor visits exactly
the pre-order paths not strictly below `D`, without error. -/
theorem walkL_skipAt (D : List String) (cs : List Entry) (p : List String)
    (hp : ¬ D <+: p) (hf : D ∉ filesL p cs) :
    walkL (skipAt D) p cs = ((preL p cs).filter (keepB D), none) := by
  cases cs with
  | nil => rfl
  | cons e es =>
    have hfe : D ∉ filesE p e := fun h =>
      hf (by rw [filesL]; exact List.mem_append.mpr (Or.inl h))
    have hfes : D ∉ filesL p es := fun h =>
      hf (by rw [filesL]; exact List.mem_append.mpr (Or.inr h))
    have h1 := walkE_skipAt D e p hp hfe
    have h2 := walkL_skipAt D es p hp hfes
    simp only [walkL, preL]
    rw [h1, h2, List.filter_append]
end

mutual
/-- Walking one entry with the visitor that fails at `D`: if `D` occurs in
the subtree's pre-order list the walk stops right at `D` and reports the
error; otherwise it visits everything and reports none. -/
theorem walkE_failAt (D : List String) (err : Nat) (e : Entry)
    (p : List String) :
    (D ∈ preE p e → walkE (failAt D err) p e =
      (upTo (preE p e) D, some (.fail err))) ∧
    (D ∉ preE p e → walkE (failAt D err) p e = (preE p e, none)) := by
  cases e with
  | file n f =>
    by_cases hq : p ++ [n] = D
    · refine ⟨fun _ => ?_, fun hmem => absurd ?_ hmem⟩
      · simp only [walkE, failAt, if_pos hq, preE, upTo, if_pos hq]
      · rw [preE, ← hq]
        exact List.mem_cons_self _ _
    · refine ⟨fun hmem => ?_, fun _ => ?_⟩
      · rw [preE] at hmem
        rcases List.mem_cons.mp hmem with heq | h'
        · exact absurd heq.symm hq
        · cases h'
      · simp only [walkE, failAt, if_neg hq, preE]
  | dir n cs =>
    by_cases hq : p ++ [n] = D
    · refine ⟨fun _ => ?_, fun hmem => absurd ?_ hmem⟩
      · simp only [walkE, failAt, if_pos hq, preE, upTo, if_pos hq]
      · rw [preE, ← hq]
        exact List.mem_cons_self _ _
    · constructor
      · intro hmem
        rw [preE] at hmem
        rcases List.mem_cons.mp hmem with heq | hmem'
        · exact absurd heq.symm hq
        · simp only [walkE, failAt, if_neg hq, preE]
          rw [(walkL_failAt D err cs (p ++ [n])).1 hmem']
          simp only [upTo, if_neg hq]
      · intro hmem
        have hm1 : D ∉ preL (p ++ [n]) cs := fun h =>
          hmem (by rw [preE]; exact List.mem_cons_of_mem _ h)
        simp only [walkE, failAt, if_neg hq, preE]
        rw [(walkL_failAt D err cs (p ++ [n])).2 hm1]

/-- Walking a sibling sequence with the visitor that fails at `D`. -/
theorem walkL_failAt (D : List String) (err : Nat) (cs : List Entry)
    (p : List String) :
    (D ∈ preL p cs → walkL (failAt D err) p cs =
      (upTo (preL p cs) D, some (.fail err))) ∧
    (D ∉ preL p cs → walkL (failAt D err) p cs = (preL p cs, none)) := by
  cases cs with
  | nil =>
    exact ⟨fun h => absurd h (List.not_mem_nil D), fun _ => rfl⟩
  | cons e es =>
    by_cases hmE : D ∈ preE p e
    · constructor
      · intro _
        simp only [walkL, preL]
        rw [(walkE_failAt D err e p).1 hmE, upTo_append_left hmE]
      · intro hmem
        exact absurd (by rw [preL]; exact List.mem_append.mpr (Or.inl hmE))
          hmem
    · have hE := (walkE_failAt D err e p).2 hmE
      by_cases hmL : D ∈ preL p es
      · constructor
        · intro _
          simp only [walkL, preL]
          rw [hE, (walkL_failAt D err es p).1 hmL, upTo_append_right hmE]
        · intro hmem
          exact absurd (by rw [preL]; exact List.mem_append.mpr (Or.inr hmL))
            hmem
      · constructor
        · intro hmem
          rw [preL] at hmem
          rcases List.mem_append.mp hmem with h | h
          · exact absurd h hmE
          · exact absurd h hmL
        · intro _
          simp only [walkL, preL]
          rw [hE, (walkL_failAt D err es p).2 hmL]
end

/-- A Walk from the root with the skip-at-`D` visitor visits exactly the
pre-order paths not strictly below `D` and finishes without error. -/
theorem walkRoot_skipAt (root : List Entry) (D : List String)
    (hf : D ∉ filesL [] root) :
    walkRoot (skipAt D) root = ((preRoot root).filter (keepB D), none) := by
  by_cases hD : D = []
  · subst hD
    have hfil : (preRoot root).filter (keepB []) = [[]] := by
      rw [preRoot, List.filter_cons_of_pos (keepB_self [])]
      rw [List.filter_eq_nil_iff.mpr ?_]
      intro r hr
      have hst := mem_preL_strict root [] r hr
      have hrne : ¬ r = [] := by
        intro h
        rw [h] at hst
        exact absurd hst.2 (by simp)
      rw [keepB_eq_false hst.1 hrne]
      simp
    rw [hfil]
    simp only [walkRoot, skipAt, eq_self_iff_true, if_true]
  · have hnp : ¬ D <+: [] := fun h => hD (List.prefix_nil.mp h)
    have hrec := walkL_skipAt D root [] hnp hf
    simp only [walkRoot, skipAt,
      if_neg (show ¬ ([] : List String) = D from fun h => hD h.symm), preRoot]
    rw [hrec, List.filter_cons_of_pos (keepB_of_not_below hnp)]

/-- A Walk from the root with the fail-at-`D` visitor stops at `D` and
propagates the error. -/
theorem walkRoot_failAt (root : List Entry) (D : List String) (err : Nat)
    (hD : D ∈ preRoot root) :
    walkRoot (failAt D err) root =
      (upTo (preRoot root) D, some (.fail err)) := by
  by_cases h0 : D = []
  · subst h0
    simp only [walkRoot, failAt, preRoot, upTo, eq_self_iff_true, if_true]
  · have hmem : D ∈ preL [] root := by
      rw [preRoot] at hD
      rcases List.mem_cons.mp hD with h | h
      · exact absurd h h0
      · exact h
    simp only [walkRoot, failAt,
      if_neg (show ¬ ([] : List String) = D from fun h => h0 h.symm), preRoot]
    rw [(walkL_failAt D err root []).1 hmem]
    simp only [upTo, if_neg (show ¬ ([] : List String) = D from
      fun h => h0 h.symm)]

/-- C8: a Walk whose visitor answers the skip-subtree control value at the
directory path `D` visits exactly the pre-order paths that are not strictly
below `D` (so no path having `D` as a proper prefix is visited, while `D`'s
siblings still are), and the walk completes without error; a visitor
answering any other error at `D` makes the walk stop right after `D` and
propagate that error to the caller. -/
theorem walk_skip_prunes_error_aborts (root : List Entry) (D : List String)
    (err : Nat) (hf : D ∉ filesL [] root) (hD : D ∈ preRoot root) :
    walkRoot (skipAt D) root =
      ((preRoot root).filter (keepB D), none) ∧
    (∀ q ∈ (walkRoot (skipAt D) root).1, D <+: q → q = D) ∧
    walkRoot (failAt D err) root =
      (upTo (preRoot root) D, some (.fail err)) := by
  have hskip := walkRoot_skipAt root D hf
  refine ⟨hskip, ?_, walkRoot_failAt root D err hD⟩
  intro q hq hpre
  rw [hskip] at hq
  have hkeep := (List.mem_filter.mp hq).2
  unfold keepB at hkeep
  rcases Bool.or_eq_true_iff.mp hkeep with hb | hb
  · exfalso
    rw [Bool.not_eq_true'] at hb
    rw [Bool.eq_false_iff] at hb
    exact hb (List.isPrefixOf_iff_prefix.mpr hpre)
  · exact eq_of_beq hb

/-- Witness for C8: in the tree with directories a/b/c and file a/f,
skipping at D = a visits only the root and a itself, and failing at a stops
there with the error. -/
theorem walk_skip_prunes_error_aborts_witness :
    walkRoot (skipAt ["a"])
        [.dir "a" [.dir "b" [.dir "c" []], .file "f" ⟨[120], false⟩]] =
      ((preRoot [.dir "a" [.dir "b" [.dir "c" []],
          .file "f" ⟨[120], false⟩]]).filter (keepB ["a"]), none) ∧
    (∀ q ∈ (walkRoot (skipAt ["a"])
        [.dir "a" [.dir "b" [.dir "c" []], .file "f" ⟨[120], false⟩]]).1,
      ["a"] <+: q → q = ["a"]) ∧
    walkRoot (failAt ["a"] 5)
        [.dir "a" [.dir "b" [.dir "c" []], .file "f" ⟨[120], false⟩]] =
      (upTo (preRoot [.dir "a" [.dir "b" [.dir "c" []],
          .file "f" ⟨[120], false⟩]]) ["a"], some (.fail 5)) :=
  walk_skip_prunes_error_aborts
    [.dir "a" [.dir "b" [.dir "c" []], .file "f" ⟨[120], false⟩]]
    ["a"] 5 (by decide) (by decide)

/-- Witness for C6: a sequence inserting b, a, c, removing b, and a
duplicate insertion of a on the sorted one-entry directory [a]. -/
theorem dir_sorted_and_duplicate_add_fails_witness :
    (dirNames (applyOps []
        [.add (.file "b" ⟨[], false⟩), .add (.file "a" ⟨[], false⟩),
          .del "b", .add (.file "c" ⟨[], false⟩)])).Pairwise
      (fun a b => a < b) ∧
    (dirNames (applyOps []
        [.add (.file "b" ⟨[], false⟩), .add (.file "a" ⟨[], false⟩),
          .del "b", .add (.file "c" ⟨[], false⟩)])).Nodup ∧
    addEntry [.file "a" ⟨[], false⟩] (.file "a" ⟨[1], false⟩) =
      .error .AlreadyExists ∧
    applyOp [.file "a" ⟨[], false⟩] (.add (.file "a" ⟨[1], false⟩)) =
      [.file "a" ⟨[], false⟩] :=
  dir_sorted_and_duplicate_add_fails
    [.add (.file "b" ⟨[], false⟩), .add (.file "a" ⟨[], false⟩),
      .del "b", .add (.file "c" ⟨[], false⟩)]
    [.file "a" ⟨[], false⟩] (.file "a" ⟨[1], false⟩)
    (by simp [sortedD, dirNames]) (by simp [dirNames, Entry.name])

end Vfs
